import Mathlib

/-!
Verification of the call-tracking-script-detector browser extension.

The JavaScript sources are shallowly embedded as Lean definitions:

* `src/utils.js` — phone-number normalisation/formatting/validation and the
  DOM locator (`normalizePhone`, `formatPhone`, `isValidPhone`, `phonesEqual`,
  `extractPhoneNumbers`, `findPhoneNumbersInElement`) together with the
  URL-matching helpers that the bundled build appends to it
  (`matchesUrlPattern`, `matchesQueryParams`, `matchesTrackingUrl`).
* `src/content.js` — the content script: `detectTrackingScripts`,
  `captureOriginalNumbers`, `scanCurrentNumbers`, `detectNumberSwaps`, the
  rescan message handler.
* the enhanced content script bundled at the end of `src/popup.js` /
  `src/unnamed/part_000` — guarded capture/scan, `updateBadgeAndStorage`
  with its unique-provider count, and `runDetection`.
* `src/unnamed/part_001` — an alternative content script whose domain check
  works on the URL hostname.

JavaScript strings are modelled as Lean `String` (operating on `.data`, the
list of characters); JS `Map`s as association lists in insertion order; JS
`Set`s of strings as lists without duplicates in insertion order; DOM
elements are identified by the index of the node in document order and, for
phone-number records, by the location label `getElementLocation` would
compute for them (the DOM ancestry walk itself is host-platform behaviour).
Host calls that can throw (`new URL`, `document.createTreeWalker`) are
modelled by `Option` inputs for parse results and `Except` outputs for
thrown exceptions.
-/

namespace CTD

/-- ASCII lower-casing of a string, the model of JS `String.prototype.toLowerCase`
on the ASCII inputs (URLs, signatures) this extension feeds it. -/
def lowerStr (s : String) : String := ⟨s.data.map Char.toLower⟩

/-- JS `\s` character class (common whitespace; the rarely used further
Unicode space code points are omitted). -/
def isJsSpace (c : Char) : Bool :=
  c = ' ' || c = '\t' || c = '\n' || c = '\r' || c = '\x0b' || c = '\x0c' || c = ' '

/-- Does `pat` occur as a contiguous run inside `l`?  Model of JS
`String.prototype.includes` (on `.data`). -/
def containsSub (pat : List Char) : List Char → Bool
  | [] => pat.isEmpty
  | c :: t => pat.isPrefixOf (c :: t) || containsSub pat t

/-- JS `s.includes(pat)`. -/
def includesStr (s pat : String) : Bool := containsSub pat.data s.data

/-- JS `s.endsWith(t)` (on `.data`). -/
def endsWithL (s t : List Char) : Bool := t.reverse.isPrefixOf s.reverse

/-- JS `s.endsWith(t)`. -/
def endsWithStr (s t : String) : Bool := endsWithL s.data t.data

/-- Remove the first occurrence of `pat` from `l`; model of JS
`String.prototype.replace(pat, '')` with a plain-string pattern. -/
def removeFirst (pat : List Char) : List Char → List Char
  | [] => []
  | c :: t => if pat.isPrefixOf (c :: t) then (c :: t).drop pat.length else c :: removeFirst pat t

/-- JS `String.prototype.trim` (both ends, `\s` class). -/
def trimStr (s : String) : String :=
  ⟨(((s.data.dropWhile isJsSpace).reverse.dropWhile isJsSpace).reverse)⟩

/-- First-occurrence deduplication, the model of `[...new Set(array)]`. -/
def dedupFirstAux (seen : List String) : List String → List String
  | [] => []
  | x :: xs => if seen.contains x then dedupFirstAux seen xs else x :: dedupFirstAux (x :: seen) xs

/-- Model of `[...new Set(array)]`: keeps the first occurrence of each element,
in order. -/
def dedupFirst (l : List String) : List String := dedupFirstAux [] l

/-! ## Phone matcher (`src/utils.js` lines 12-71) -/

/-- Digit filtering on a character list; the replacement of `/\D/g` by `''`. -/
def normalizeList (l : List Char) : List Char := l.filter Char.isDigit

/-- `normalizePhone` (utils.js:31-34): strip every non-digit character.
The JS falsy guard `if (!phone) return ''` coincides with filtering the
empty string. -/
def normalizePhone (phone : String) : String := ⟨normalizeList phone.data⟩

/-- `formatPhone` (utils.js:41-51): 10 digits become `(AAA) PPP-LLLL`,
11 digits with a leading `1` become `+1 (AAA) PPP-LLLL`, anything else is
returned unchanged. -/
def formatPhone (phone : String) : String :=
  let digits := normalizeList phone.data
  if digits.length = 10 then
    ⟨'(' :: (digits.take 3 ++ (')' :: ' ' :: ((digits.drop 3).take 3 ++ ('-' :: digits.drop 6))))⟩
  else if digits.length = 11 ∧ digits.head? = some '1' then
    ⟨'+' :: '1' :: ' ' :: '(' ::
      ((digits.drop 1).take 3 ++ (')' :: ' ' :: ((digits.drop 4).take 3 ++ ('-' :: digits.drop 7))))⟩
  else
    phone

/-- `isValidPhone` (utils.js:58-61). -/
def isValidPhone (phone : String) : Bool :=
  let digits := normalizeList phone.data
  digits.length == 10 || (digits.length == 11 && digits.head? == some '1')

/-- `phonesEqual` (utils.js:69-71): identity is equality of normalized forms. -/
def phonesEqual (phone1 phone2 : String) : Bool :=
  normalizePhone phone1 == normalizePhone phone2

/-! ### The extraction regex (utils.js:12, `PHONE_REGEX`)

`/(\+?1[-.\s]?)?\(?\d{3}\)?[-.\s]?\d{3}[-.\s]?\d{4}/g` is a concatenation of
literal characters, fixed digit runs and greedy optional elements.  A match
attempt at a position tries the alternatives in backtracking order, which for
a concatenation of independent optionals is the lexicographic order that
prefers the "present" branch of each optional, earlier elements varying
slowest.  We enumerate exactly those alternatives. -/

/-- A sub-parser: consumes a prefix of the input or fails. -/
def SubParser : Type := List Char → Option (List Char)

/-- Consume one literal character. -/
def pChar (a : Char) : SubParser := fun l =>
  match l with
  | c :: t => if c = a then some t else none
  | [] => none

/-- Consume exactly `n` decimal digits (`\d{n}`). -/
def pDigits : Nat → SubParser
  | 0 => fun l => some l
  | n + 1 => fun l =>
    match l with
    | c :: t => if c.isDigit then pDigits n t else none
    | [] => none

/-- Consume one separator character (`[-.\s]`). -/
def pSep : SubParser := fun l =>
  match l with
  | c :: t => if c = '-' || c = '.' || isJsSpace c then some t else none
  | [] => none

/-- Run a sequence of sub-parsers. -/
def runSeq : List SubParser → List Char → Option (List Char)
  | [], l => some l
  | p :: ps, l =>
    match p l with
    | some r => runSeq ps r
    | none => none

/-- Try alternatives in order; first success wins (backtracking order). -/
def runAlts (alts : List (List SubParser)) (l : List Char) : Option (List Char) :=
  match alts with
  | [] => none
  | alt :: rest =>
    match runSeq alt l with
    | some r => some r
    | none => runAlts rest l

/-- Lexicographic cross product of per-element alternative lists, earliest
element most significant — the regex backtracking order. -/
def crossAlts (groups : List (List (List SubParser))) : List (List SubParser) :=
  groups.foldr (fun g acc => g.flatMap (fun alt => acc.map (fun rest => alt ++ rest))) [[]]

/-- All backtracking alternatives of `PHONE_REGEX`, in order.  The groups are:
`(\+?1[-.\s]?)?`, `\(?`, `\d{3}`, `\)?`, `[-.\s]?`, `\d{3}`, `[-.\s]?`, `\d{4}`. -/
def phoneRegexAlts : List (List SubParser) :=
  crossAlts
    [[[pChar '+', pChar '1', pSep], [pChar '+', pChar '1'], [pChar '1', pSep], [pChar '1'], []],
     [[pChar '('], []],
     [[pDigits 3]],
     [[pChar ')'], []],
     [[pSep], []],
     [[pDigits 3]],
     [[pSep], []],
     [[pDigits 4]]]

/-- Scan the text left to right, collecting the non-overlapping leftmost
matches of `PHONE_REGEX`, continuing after each match — the behaviour of
`text.match(regex)` with the `g` flag.  (Every match consumes at least ten
characters, so the zero-width-match rule never applies.)  `fuel` bounds the
recursion; callers pass the text length plus one. -/
def scanMatches : Nat → List Char → List (List Char)
  | 0, _ => []
  | fuel + 1, l =>
    match l with
    | [] => []
    | c :: t =>
      match runAlts phoneRegexAlts (c :: t) with
      | some rest => (c :: t).take ((c :: t).length - rest.length) :: scanMatches fuel rest
      | none => scanMatches fuel t

/-- `extractPhoneNumbers` (utils.js:19-23): all regex matches, set-deduplicated
keeping first occurrences; empty input yields the empty list. -/
def extractPhoneNumbers (text : String) : List String :=
  if text.isEmpty then []
  else dedupFirst ((scanMatches (text.data.length + 1) text.data).map fun m => ⟨m⟩)

/-- Does `s` match the anchored pattern `^\(\d\d\d\) \d\d\d-\d\d\d\d$`
(the shape of a formatted 10-digit number)? -/
def isFmt10 (s : String) : Bool :=
  match s.data with
  | '(' :: a :: b :: c :: ')' :: ' ' :: d :: e :: f :: '-' :: g :: h :: i :: j :: [] =>
    a.isDigit && b.isDigit && c.isDigit && d.isDigit && e.isDigit && f.isDigit &&
      g.isDigit && h.isDigit && i.isDigit && j.isDigit
  | _ => false

/-- Does `s` match `^\+1 \(\d\d\d\) \d\d\d-\d\d\d\d$` (the shape of a formatted
11-digit number)? -/
def isFmt11 (s : String) : Bool :=
  match s.data with
  | '+' :: '1' :: ' ' :: '(' :: a :: b :: c :: ')' :: ' ' :: d :: e :: f :: '-' ::
      g :: h :: i :: j :: [] =>
    a.isDigit && b.isDigit && c.isDigit && d.isDigit && e.isDigit && f.isDigit &&
      g.isDigit && h.isDigit && i.isDigit && j.isDigit
  | _ => false

/-! ## DOM locator (`src/utils.js` lines 78-121)

A text node is modelled by its text content together with the location label
that `getElementLocation` (utils.js:128-149) computes for its parent element;
a `tel:` anchor by its `href`, its text and its location label.  The tree
walk itself (`document.createTreeWalker` + `querySelectorAll`) visits the
nodes in document order, which the list order models. -/

structure TextNode where
  text : String
  loc : String
  deriving DecidableEq

structure TelLink where
  href : String
  text : String
  loc : String
  deriving DecidableEq

/-- The scanned subtree (in the extension always `document.body`). -/
structure DomBody where
  textNodes : List TextNode
  telLinks : List TelLink
  deriving DecidableEq

/-- One result record of `findPhoneNumbersInElement`.  `elemLoc` stands for
the `element` reference (modelled by its location label). -/
structure NumberInfo where
  phone : String
  formatted : String
  normalized : String
  elemLoc : String
  textContent : String
  isTelLink : Bool
  deriving DecidableEq

/-- The body of `findPhoneNumbersInElement` (utils.js:78-121) on a present
root element: extract + validate phone numbers from every text node, then
process every `a[href^="tel:"]` anchor.  For a `tel:` link the digits are
`href.replace('tel:', '').replace(/\D/g, '')`, and both the `phone` and the
`formatted` fields carry `formatPhone` of them. -/
def findPhoneNumbersInBody (el : DomBody) : List NumberInfo :=
  (el.textNodes.flatMap fun tn =>
    ((extractPhoneNumbers tn.text).filter fun ph => isValidPhone ph).map fun ph =>
      ⟨ph, formatPhone ph, normalizePhone ph, tn.loc, trimStr tn.text, false⟩) ++
  (el.telLinks.filterMap fun link =>
    let phone : String := ⟨normalizeList (removeFirst "tel:".data link.href.data)⟩
    if isValidPhone phone then
      some ⟨formatPhone phone, formatPhone phone, phone, link.loc, trimStr link.text, true⟩
    else none)

/-- `findPhoneNumbersInElement` as invoked on a possibly absent root:
`document.createTreeWalker(null, ...)` throws a `TypeError`, modelled by
`Except.error`; on a present root the walk of utils.js:78-121 runs. -/
def findPhoneNumbersInElement (root : Option DomBody) : Except String (List NumberInfo) :=
  match root with
  | none => Except.error "TypeError: parameter 1 is not of type Node"
  | some el => Except.ok (findPhoneNumbersInBody el)

/-! ## Wildcard URL-path matching (`matchesUrlPattern`, bundled utils
lines 1376-1423)

The JS code escapes every regex metacharacter except `*` in the pattern and
replaces each `*` by `.*`, so the resulting regular expression is a
concatenation of literal characters and `.*` runs, tested unanchored by
`RegExp.prototype.test`.  The executable model splits the pattern at its
stars and searches the segments left to right, each at its earliest
occurrence; `Glob`/`regexTest` below give the declarative regex semantics
and the two are proved equivalent. -/

/-- Split a pattern at `'*'` characters into its literal segments
(`n` stars yield `n + 1` segments, empty segments included). -/
def splitStar : List Char → List (List Char)
  | [] => [[]]
  | c :: t =>
    if c = '*' then [] :: splitStar t
    else
      match splitStar t with
      | [] => [[c]]
      | h :: r => (c :: h) :: r

/-- Drop everything up to and including the first occurrence of `pat`;
`none` if `pat` does not occur. -/
def dropAfterFirst (pat : List Char) : List Char → Option (List Char)
  | [] => if pat.isEmpty then some [] else none
  | c :: t => if pat.isPrefixOf (c :: t) then some ((c :: t).drop pat.length) else dropAfterFirst pat t

/-- Do the segments occur in `s`, in order, without overlap?  Greedy
left-to-right search. -/
def seqContains : List (List Char) → List Char → Bool
  | [], _ => true
  | seg :: rest, s =>
    match dropAfterFirst seg s with
    | none => false
    | some s' => seqContains rest s'

/-- The unanchored test of the wildcard pattern `pat` (after metacharacter
escaping, `*` meaning `.*`) against `s` — the model of building the regex and
calling `.test(s)` in `matchesUrlPattern`. -/
def wildcardTest (pat s : String) : Bool := seqContains (splitStar pat.data) s.data

/-- Declarative (anchored) semantics of the translated pattern: literal
characters match themselves, `'*'` matches any run of characters. -/
inductive Glob : List Char → List Char → Prop where
  | done : Glob [] []
  | lit {c : Char} {p s : List Char} : c ≠ '*' → Glob p s → Glob (c :: p) (c :: s)
  | starNil {p s : List Char} : Glob p s → Glob ('*' :: p) s
  | starCons {p s : List Char} {c : Char} : Glob ('*' :: p) s → Glob ('*' :: p) (c :: s)

/-- Declarative semantics of the unanchored `RegExp.prototype.test`: some
contiguous run of `s` matches the pattern. -/
def regexTest (pat s : List Char) : Prop :=
  ∃ pre mid suf, s = pre ++ mid ++ suf ∧ Glob pat mid

/-- `matchesUrlPattern` (bundled utils 1376-1423).  `parsedPath` is the
`pathname` of `new URL(url.toLowerCase())` when that parse succeeds and
`none` when it throws; on success each (lowercased) pattern is
wildcard-tested against the pathname, on failure a pattern containing `*` is
wildcard-tested against the lowercased URL and a star-free pattern is tested
by substring containment.  (Regex construction itself cannot fail after the
escaping, so the inner `catch` branches are dead.) -/
def matchesUrlPattern (parsedPath : Option String) (url : String) (patterns : List String) : Bool :=
  if url.isEmpty || patterns.isEmpty then false
  else
    match parsedPath with
    | some pathname => patterns.any fun pattern => wildcardTest (lowerStr pattern) pathname
    | none =>
      patterns.any fun pattern =>
        let normalizedPattern := lowerStr pattern
        if normalizedPattern.data.contains '*' then
          wildcardTest normalizedPattern (lowerStr url)
        else
          includesStr (lowerStr url) normalizedPattern

/-- The query-key list of `new URL(url).searchParams` when the parse
succeeds.  `matchesQueryParams` (bundled utils 1431-1460): on success a
case-insensitive substring test of each query key against each pattern, on
parse failure a search for `?param=` / `&param=` in the lowercased URL. -/
def matchesQueryParams (searchKeys : Option (List String)) (url : String)
    (paramPatterns : List String) : Bool :=
  if url.isEmpty || paramPatterns.isEmpty then false
  else
    match searchKeys with
    | some keys =>
      paramPatterns.any fun param => keys.any fun key => includesStr (lowerStr key) (lowerStr param)
    | none =>
      paramPatterns.any fun param =>
        includesStr (lowerStr url) ("?" ++ lowerStr param ++ "=") ||
          includesStr (lowerStr url) ("&" ++ lowerStr param ++ "=")

/-! ## Provider matcher -/

/-- A provider descriptor from `providers.json`. -/
structure Provider where
  id : String
  name : String
  domains : List String
  scriptPatterns : List String
  urlPathPatterns : List String
  queryParamPatterns : List String
  signatures : List String
  deriving DecidableEq

/-- The components of a successfully parsed script URL: `hostname` and the
`pathname` of `new URL(url.toLowerCase())`, and the `searchParams` keys of
`new URL(url)`. -/
structure UrlParts where
  hostname : String
  pathname : String
  searchKeys : List String
  deriving DecidableEq

/-- The result record of `matchesTrackingUrl`; `isMatch` is the JS field
`matches` (a reserved word in Lean). -/
structure MatchResult where
  isMatch : Bool
  matchType : Option String
  matchedPattern : Option String
  deriving DecidableEq

/-- `matchesTrackingUrl` (bundled utils 1469-1536): domain, script-pattern,
URL-path and query-parameter checks in that order, first hit wins.  The
domain and script-pattern checks are substring tests of the entry against the
whole lowercased URL.  `parts` is the outcome of URL parsing (see
`UrlParts`); `none` when `new URL` throws. -/
def matchesTrackingUrl (parts : Option UrlParts) (url : String) (provider : Provider) :
    MatchResult :=
  if url.isEmpty then ⟨false, none, none⟩
  else
    let normalizedUrl := lowerStr url
    if !provider.domains.isEmpty &&
        provider.domains.any fun domain => includesStr normalizedUrl (lowerStr domain) then
      ⟨true, some "domain", provider.domains.find? fun d => includesStr normalizedUrl (lowerStr d)⟩
    else if !provider.scriptPatterns.isEmpty &&
        provider.scriptPatterns.any fun pattern => includesStr normalizedUrl (lowerStr pattern) then
      ⟨true, some "scriptPattern",
        provider.scriptPatterns.find? fun p => includesStr normalizedUrl (lowerStr p)⟩
    else if !provider.urlPathPatterns.isEmpty &&
        matchesUrlPattern (parts.map UrlParts.pathname) url provider.urlPathPatterns then
      ⟨true, some "urlPath",
        provider.urlPathPatterns.find? fun p =>
          matchesUrlPattern (parts.map UrlParts.pathname) url [p]⟩
    else if !provider.queryParamPatterns.isEmpty &&
        matchesQueryParams (parts.map UrlParts.searchKeys) url provider.queryParamPatterns then
      ⟨true, some "queryParam",
        provider.queryParamPatterns.find? fun p =>
          matchesQueryParams (parts.map UrlParts.searchKeys) url [p]⟩
    else ⟨false, none, none⟩

/-- The domain check of the `part_001` content script (part_001:71-92): the
lowercased hostname must equal a (lowercased) domains entry or end with `"."`
followed by it. -/
def hostnameDomainCheck (hostname : String) (domains : List String) : Bool :=
  let h := lowerStr hostname
  domains.any fun domain =>
    let d := lowerStr domain
    h == d || endsWithStr h ("." ++ d)

/-- The external-script match of `detectTrackingScripts` in `src/content.js`
(lines 46-53): the lowercased `script.src` contains a domains entry or a
scriptPatterns entry as a substring. -/
def providerExtMatch (src : String) (provider : Provider) : Bool :=
  let srcL := lowerStr src
  (provider.domains.any fun domain => includesStr srcL (lowerStr domain)) ||
    (provider.scriptPatterns.any fun pattern => includesStr srcL (lowerStr pattern))

/-- The inline-signature match (content.js:72-74, identical in the enhanced
content script): the lowercased script body contains a lowercased signatures
entry.  `contentL` is already lowercased. -/
def sigMatch (contentL : String) (provider : Provider) : Bool :=
  provider.signatures.any fun sig => includesStr contentL (lowerStr sig)

/-- One entry of `detectedTrackers`.  `elemIdx` models the `element` DOM
reference by the node's index in its query result; fields absent on a JS
object (`isInline`, `matchType`, `matchedPattern` on some entries) are
`false` / `none`. -/
structure Tracker where
  provider : String
  providerId : String
  scriptUrl : String
  elemIdx : Nat
  isInline : Bool
  matchType : Option String
  matchedPattern : Option String
  deriving DecidableEq

/-- `Set.prototype.add` on a set modelled as a duplicate-free list in
insertion order. -/
def setAdd (s : List String) (x : String) : List String :=
  if s.contains x then s else s ++ [x]

/-- An external `<script src=...>` element: its `src` and the outcome of
parsing it as a URL. -/
structure ExtScript where
  src : String
  parts : Option UrlParts
  deriving DecidableEq

/-- One provider step of the external-script loop of content.js
`detectTrackingScripts` (lines 46-63): a matching provider is added to the
set and pushed as a tracker. -/
def extProviderStepCJS (src : String) (i : Nat)
    (acc : List String × List Tracker) (provider : Provider) : List String × List Tracker :=
  if providerExtMatch src provider then
    (setAdd acc.1 provider.id,
      acc.2 ++ [⟨provider.name, provider.id, src, i, false, none, none⟩])
  else acc

/-- The external-script loop of content.js `detectTrackingScripts`
(lines 43-64), from script index `i`. -/
def extPhaseCJS (providers : List Provider) (i : Nat)
    (acc : List String × List Tracker) : List ExtScript → List String × List Tracker
  | [] => acc
  | script :: rest =>
    let acc' := providers.foldl (extProviderStepCJS script.src i) acc
    extPhaseCJS providers (i + 1) acc' rest

/-- The external-script loop of the enhanced content script (popup.js bundle
lines 543-567), which delegates to `matchesTrackingUrl` and records the match
type and pattern. -/
def extPhaseEnh (providers : List Provider) (i : Nat)
    (acc : List String × List Tracker) : List ExtScript → List String × List Tracker
  | [] => acc
  | script :: rest =>
    let acc' := providers.foldl
      (fun acc provider =>
        let matchResult := matchesTrackingUrl script.parts script.src provider
        if matchResult.isMatch then
          (setAdd acc.1 provider.id,
            acc.2 ++ [⟨provider.name, provider.id, script.src, i, false,
              matchResult.matchType, matchResult.matchedPattern⟩])
        else acc)
      acc
    extPhaseEnh providers (i + 1) acc' rest

/-- One provider step of the inline-script loop (content.js:71-87, identical
in the enhanced script): push a signature tracker only when the provider id
is not yet in the detected set. -/
def inlineProviderStep (contentL : String) (i : Nat)
    (acc : List String × List Tracker) (provider : Provider) : List String × List Tracker :=
  if sigMatch contentL provider && !acc.1.contains provider.id then
    (setAdd acc.1 provider.id,
      acc.2 ++ [⟨provider.name, provider.id, "inline script", i, true, none, none⟩])
  else acc

/-- The inline-script loop of `detectTrackingScripts` (content.js:67-88),
from inline-script index `i`. -/
def inlinePhase (providers : List Provider) (i : Nat)
    (acc : List String × List Tracker) : List String → List String × List Tracker
  | [] => acc
  | content :: rest =>
    let acc' := providers.foldl (inlineProviderStep (lowerStr content) i) acc
    inlinePhase providers (i + 1) acc' rest

/-- `detectTrackingScripts` of `src/content.js` (lines 39-91).  `trackers0`
is the `detectedTrackers` array the function pushes onto; the
`detectedProviders` set starts empty on every call.  Returns the final set
(`Array.from(detectedProviders)` is its insertion-order listing) and the
grown tracker array. -/
def detectTrackingScriptsCJS (providers : List Provider) (trackers0 : List Tracker)
    (ext : List ExtScript) (inl : List String) : List String × List Tracker :=
  inlinePhase providers 0 (extPhaseCJS providers 0 ([], trackers0) ext) inl

/-- `detectTrackingScripts` of the enhanced content script (popup.js bundle
lines 542-594): external scripts through `matchesTrackingUrl`, then the same
inline-signature loop. -/
def detectTrackingScriptsEnh (providers : List Provider) (trackers0 : List Tracker)
    (ext : List ExtScript) (inl : List String) : List String × List Tracker :=
  inlinePhase providers 0 (extPhaseEnh providers 0 ([], trackers0) ext) inl

/-! ## Number snapshots and the swap detector -/

/-- A value of the `originalNumbers` map (content.js:99-104): the spread
number info plus `foundAt` and the accumulated location list. -/
structure OrigRec where
  info : NumberInfo
  foundAt : Nat
  locations : List String
  deriving DecidableEq

/-- A value of the `currentNumbers` map (content.js:125-129). -/
structure CurrRec where
  info : NumberInfo
  count : Nat
  locations : List String
  deriving DecidableEq

/-- Lookup in an association list (JS `Map.prototype.get` /
`Map.prototype.has`, keys in insertion order). -/
def findVal {β : Type} (m : List (String × β)) (k : String) : Option β :=
  match m with
  | [] => none
  | e :: rest => if e.1 = k then some e.2 else findVal rest k

/-- Update the value stored at `k` (JS mutation of `map.get(k)`). -/
def updateVal {β : Type} (m : List (String × β)) (k : String) (f : β → β) :
    List (String × β) :=
  m.map fun e => if e.1 = k then (e.1, f e.2) else e

/-- One insertion step of `captureOriginalNumbers` (content.js:97-113): a new
normalized key is inserted with a fresh record, an existing one only gains a
new location label. -/
def captureStep (now : Nat) (m : List (String × OrigRec)) (ni : NumberInfo) :
    List (String × OrigRec) :=
  match findVal m ni.normalized with
  | none => m ++ [(ni.normalized, ⟨ni, now, [ni.elemLoc]⟩)]
  | some _ =>
    updateVal m ni.normalized fun existing =>
      if existing.locations.contains ni.elemLoc then existing
      else ⟨existing.info, existing.foundAt, existing.locations ++ [ni.elemLoc]⟩

/-- `captureOriginalNumbers` of the enhanced content script (popup.js bundle
lines 597-622): the `if (!document.body) return;` guard makes an absent body
a no-op; otherwise every located number is folded into the map. -/
def captureOriginalNumbers (body : Option DomBody) (orig : List (String × OrigRec))
    (now : Nat) : List (String × OrigRec) :=
  match body with
  | none => orig
  | some el => (findPhoneNumbersInBody el).foldl (captureStep now) orig

/-- `captureOriginalNumbers` of `src/content.js` (lines 94-116): no body
guard — `findPhoneNumbersInElement(document.body)` is invoked directly, so an
absent body propagates the locator's `TypeError`. -/
def captureOriginalNumbersCJS (body : Option DomBody) (orig : List (String × OrigRec))
    (now : Nat) : Except String (List (String × OrigRec)) :=
  (findPhoneNumbersInElement body).map fun numbers => numbers.foldl (captureStep now) orig

/-- One insertion step of `scanCurrentNumbers` (content.js:123-138). -/
def scanStep (m : List (String × CurrRec)) (ni : NumberInfo) : List (String × CurrRec) :=
  match findVal m ni.normalized with
  | none => m ++ [(ni.normalized, ⟨ni, 1, [ni.elemLoc]⟩)]
  | some _ =>
    updateVal m ni.normalized fun existing =>
      if existing.locations.contains ni.elemLoc then
        ⟨existing.info, existing.count + 1, existing.locations⟩
      else ⟨existing.info, existing.count + 1, existing.locations ++ [ni.elemLoc]⟩

/-- `scanCurrentNumbers` of the enhanced content script (popup.js bundle
lines 625-648): guarded on the body (returning with the map untouched), else
the map is cleared and rebuilt from the current DOM. -/
def scanCurrentNumbers (body : Option DomBody) (curr : List (String × CurrRec)) :
    List (String × CurrRec) :=
  match body with
  | none => curr
  | some el => (findPhoneNumbersInBody el).foldl scanStep []

/-- A `SwapRecord` (content.js:156-163). -/
structure SwapRecord where
  original : String
  tracking : String
  originalNormalized : String
  trackingNormalized : String
  locations : List String
  swappedAt : Nat
  deriving DecidableEq

/-- `detectNumberSwaps` (content.js:142-170): every original key absent from
the current snapshot is paired with every current key absent from the
original snapshot; keys present in both snapshots produce nothing.  `now`
models `Date.now()`. -/
def detectNumberSwaps (orig : List (String × OrigRec)) (curr : List (String × CurrRec))
    (now : Nat) : List SwapRecord :=
  (orig.filter fun o => (findVal curr o.1).isNone).flatMap fun o =>
    (curr.filter fun c => (findVal orig c.1).isNone).map fun c =>
      ⟨o.2.info.formatted, c.2.info.formatted, o.1, c.1, o.2.locations, now⟩

/-! ## Badge / status counts -/

/-- The unique-provider count of `updateBadgeAndStorage` in the enhanced
content script (popup.js bundle lines 807-809):
`new Set(detectedTrackers.map(t => t.providerId)).size`. -/
def uniqueProviderCount (trackers : List Tracker) : Nat :=
  (dedupFirst (trackers.map Tracker.providerId)).length

/-- The tracker count shown by the status line of `displayResults`
(popup.js:62-66 and the side-panel copies): the raw `detectedTrackers.length`. -/
def popupStatusTrackerCount (trackers : List Tracker) : Nat := trackers.length

/-! ## Scan orchestration (enhanced content script) -/

/-- The mutable per-page state of the content script. -/
structure ScanState where
  originalNumbers : List (String × OrigRec)
  currentNumbers : List (String × CurrRec)
  detectedTrackers : List Tracker
  scanComplete : Bool
  deriving DecidableEq

/-- The page as the content script sees it. -/
structure Page where
  extScripts : List ExtScript
  inlineScripts : List String
  body : Option DomBody
  deriving DecidableEq

/-- The synchronous steps of `runDetection` in the enhanced content script
(popup.js bundle lines 875-915): capture originals if none captured yet,
detect tracking scripts (appending to `detectedTrackers`), rescan current
numbers, set `scanComplete`.  (The global-variable probe and the
badge/storage emission are host-side effects outside the state.) -/
def runDetection (providers : List Provider) (st : ScanState) (page : Page) (now : Nat) :
    ScanState :=
  let orig := if st.originalNumbers.isEmpty then
      captureOriginalNumbers page.body st.originalNumbers now
    else st.originalNumbers
  let detected := detectTrackingScriptsEnh providers st.detectedTrackers
    page.extScripts page.inlineScripts
  let curr := scanCurrentNumbers page.body st.currentNumbers
  ⟨orig, curr, detected.2, true⟩

/-- The state clearing of the `rescan` message handler (content.js:326-333,
popup.js bundle 934-941): `originalNumbers.clear(); currentNumbers.clear();
detectedTrackers = [];`. -/
def clearForRescan (st : ScanState) : ScanState :=
  ⟨[], [], [], st.scanComplete⟩

/-- The full `rescan` handler: clear the accumulated state, then run
detection again. -/
def handleRescan (providers : List Provider) (st : ScanState) (page : Page) (now : Nat) :
    ScanState :=
  runDetection providers (clearForRescan st) page now

/-! ## Helper lemmas about the phone matcher -/

theorem mem_normalizeList_isDigit (s : String) :
    ∀ c ∈ normalizeList s.data, c.isDigit = true := fun _ hc =>
  (List.mem_filter.mp hc).2

theorem fmt10_props (d : List Char) (hlen : d.length = 10) (hd : ∀ c ∈ d, c.isDigit = true) :
    isFmt10 ⟨'(' :: (d.take 3 ++ (')' :: ' ' :: ((d.drop 3).take 3 ++ ('-' :: d.drop 6))))⟩ = true ∧
    normalizeList ('(' :: (d.take 3 ++ (')' :: ' ' :: ((d.drop 3).take 3 ++ ('-' :: d.drop 6))))) = d := by
  rcases d with _ | ⟨c0, d⟩
  · simp at hlen
  rcases d with _ | ⟨c1, d⟩
  · simp at hlen
  rcases d with _ | ⟨c2, d⟩
  · simp at hlen
  rcases d with _ | ⟨c3, d⟩
  · simp at hlen
  rcases d with _ | ⟨c4, d⟩
  · simp at hlen
  rcases d with _ | ⟨c5, d⟩
  · simp at hlen
  rcases d with _ | ⟨c6, d⟩
  · simp at hlen
  rcases d with _ | ⟨c7, d⟩
  · simp at hlen
  rcases d with _ | ⟨c8, d⟩
  · simp at hlen
  rcases d with _ | ⟨c9, d⟩
  · simp at hlen
  rcases d with _ | ⟨c10, d⟩
  · simp only [List.mem_cons] at hd
    constructor <;>
      simp_all [isFmt10, normalizeList,
        show ('(' : Char).isDigit = false from rfl, show (')' : Char).isDigit = false from rfl,
        show (' ' : Char).isDigit = false from rfl, show ('-' : Char).isDigit = false from rfl]
  · simp only [List.length_cons, List.length_nil] at hlen
    omega

theorem fmt11_props (d : List Char) (hlen : d.length = 11) (hhead : d.head? = some '1')
    (hd : ∀ c ∈ d, c.isDigit = true) :
    isFmt11 ⟨'+' :: '1' :: ' ' :: '(' ::
      ((d.drop 1).take 3 ++ (')' :: ' ' :: ((d.drop 4).take 3 ++ ('-' :: d.drop 7))))⟩ = true ∧
    normalizeList ('+' :: '1' :: ' ' :: '(' ::
      ((d.drop 1).take 3 ++ (')' :: ' ' :: ((d.drop 4).take 3 ++ ('-' :: d.drop 7))))) = d := by
  rcases d with _ | ⟨c0, d⟩
  · simp at hlen
  obtain rfl : c0 = '1' := by simpa using hhead
  rcases d with _ | ⟨c1, d⟩
  · simp at hlen
  rcases d with _ | ⟨c2, d⟩
  · simp at hlen
  rcases d with _ | ⟨c3, d⟩
  · simp at hlen
  rcases d with _ | ⟨c4, d⟩
  · simp at hlen
  rcases d with _ | ⟨c5, d⟩
  · simp at hlen
  rcases d with _ | ⟨c6, d⟩
  · simp at hlen
  rcases d with _ | ⟨c7, d⟩
  · simp at hlen
  rcases d with _ | ⟨c8, d⟩
  · simp at hlen
  rcases d with _ | ⟨c9, d⟩
  · simp at hlen
  rcases d with _ | ⟨c10, d⟩
  · simp at hlen
  rcases d with _ | ⟨c11, d⟩
  · simp only [List.mem_cons] at hd
    constructor <;>
      simp_all [isFmt11, normalizeList,
        show ('+' : Char).isDigit = false from rfl, show ('1' : Char).isDigit = true from rfl,
        show ('(' : Char).isDigit = false from rfl, show (')' : Char).isDigit = false from rfl,
        show (' ' : Char).isDigit = false from rfl, show ('-' : Char).isDigit = false from rfl]
  · simp only [List.length_cons, List.length_nil] at hlen
    omega

theorem formatPhone_eq_10 (s : String) (h : (normalizeList s.data).length = 10) :
    formatPhone s =
      ⟨'(' :: ((normalizeList s.data).take 3 ++ (')' :: ' ' ::
        (((normalizeList s.data).drop 3).take 3 ++ ('-' :: (normalizeList s.data).drop 6))))⟩ := by
  simp [formatPhone, h]

theorem formatPhone_eq_11 (s : String) (h : (normalizeList s.data).length = 11)
    (hh : (normalizeList s.data).head? = some '1') :
    formatPhone s =
      ⟨'+' :: '1' :: ' ' :: '(' :: (((normalizeList s.data).drop 1).take 3 ++ (')' :: ' ' ::
        (((normalizeList s.data).drop 4).take 3 ++ ('-' :: (normalizeList s.data).drop 7))))⟩ := by
  simp [formatPhone, h, hh]

theorem formatPhone_eq_self (s : String) (h10 : ¬(normalizeList s.data).length = 10)
    (h11 : ¬((normalizeList s.data).length = 11 ∧ (normalizeList s.data).head? = some '1')) :
    formatPhone s = s := by
  simp [formatPhone, h10, h11]

theorem norm_fmt (s : String) : normalizePhone (formatPhone s) = normalizePhone s := by
  by_cases h10 : (normalizeList s.data).length = 10
  · rw [formatPhone_eq_10 s h10]
    exact congrArg String.mk
      (fmt10_props (normalizeList s.data) h10 (mem_normalizeList_isDigit s)).2
  · by_cases h11 : (normalizeList s.data).length = 11 ∧ (normalizeList s.data).head? = some '1'
    · rw [formatPhone_eq_11 s h11.1 h11.2]
      exact congrArg String.mk
        (fmt11_props (normalizeList s.data) h11.1 h11.2 (mem_normalizeList_isDigit s)).2
    · rw [formatPhone_eq_self s h10 h11]

/-- C2: for every input string, `formatPhone` normalizes it and then: a
10-digit normalized form is rendered as `(AAA) PPP-LLLL` (and re-normalizing
the output recovers the digit string); an 11-digit form with leading `1` is
rendered as `+1 (AAA) PPP-LLLL` (again normalization-preserving); any other
digit length returns the original input unchanged. -/
theorem formatPhone_spec (s : String) :
    ((normalizePhone s).data.length = 10 →
      isFmt10 (formatPhone s) = true ∧ normalizePhone (formatPhone s) = normalizePhone s) ∧
    ((normalizePhone s).data.length = 11 ∧ (normalizePhone s).data.head? = some '1' →
      isFmt11 (formatPhone s) = true ∧ normalizePhone (formatPhone s) = normalizePhone s) ∧
    (¬(normalizePhone s).data.length = 10 →
      ¬((normalizePhone s).data.length = 11 ∧ (normalizePhone s).data.head? = some '1') →
      formatPhone s = s) := by
  refine ⟨fun h10 => ?_, fun h11 => ?_, fun h10 h11 => formatPhone_eq_self s h10 h11⟩
  · refine ⟨?_, norm_fmt s⟩
    rw [formatPhone_eq_10 s h10]
    exact (fmt10_props (normalizeList s.data) h10 (mem_normalizeList_isDigit s)).1
  · refine ⟨?_, norm_fmt s⟩
    rw [formatPhone_eq_11 s h11.1 h11.2]
    exact (fmt11_props (normalizeList s.data) h11.1 h11.2 (mem_normalizeList_isDigit s)).1

/-- C2 witness: the three branches at concrete inputs. -/
theorem formatPhone_spec_witness :
    (isFmt10 (formatPhone "555-123-4567") = true ∧
      normalizePhone (formatPhone "555-123-4567") = normalizePhone "555-123-4567") ∧
    (isFmt11 (formatPhone "+1 555 123 4567") = true ∧
      normalizePhone (formatPhone "+1 555 123 4567") = normalizePhone "+1 555 123 4567") ∧
    formatPhone "12" = "12" :=
  ⟨(formatPhone_spec "555-123-4567").1 (by decide),
   (formatPhone_spec "+1 555 123 4567").2.1 (by decide),
   (formatPhone_spec "12").2.2 (by decide) (by decide)⟩

/-- C9: `isValidPhone` is true exactly when the digits-only form has length
10, or length 11 with leading digit 1. -/
theorem isValidPhone_spec (s : String) :
    isValidPhone s = true ↔
      ((normalizePhone s).data.length = 10 ∨
        ((normalizePhone s).data.length = 11 ∧ (normalizePhone s).data.head? = some '1')) := by
  simp [isValidPhone, normalizePhone]

/-- C10: formatting never changes a number's identity — re-normalizing a
formatted number yields the original normalized digits, `formatPhone` is
idempotent on the normalized key, and `phonesEqual (formatPhone x) x` always
holds. -/
theorem formatPhone_identity (s : String) :
    normalizePhone (formatPhone s) = normalizePhone s ∧
    normalizePhone (formatPhone (formatPhone s)) = normalizePhone (formatPhone s) ∧
    phonesEqual (formatPhone s) s = true :=
  ⟨norm_fmt s, norm_fmt (formatPhone s), by simp [phonesEqual, norm_fmt s]⟩

/-! ## Helper lemmas about association-list maps and the swap detector -/

theorem findVal_isSome_iff {β : Type} (m : List (String × β)) (k : String) :
    (findVal m k).isSome = true ↔ ∃ e ∈ m, e.1 = k := by
  induction m with
  | nil => simp [findVal]
  | cons e rest ih =>
    by_cases he : e.1 = k
    · simp [findVal, he]
    · simp only [findVal, if_neg he, ih, List.mem_cons]
      constructor
      · rintro ⟨x, hx, rfl⟩
        exact ⟨x, Or.inr hx, rfl⟩
      · rintro ⟨x, hx | hx, rfl⟩
        · exact absurd rfl (hx ▸ he)
        · exact ⟨x, hx, rfl⟩

theorem countP_flatMap {α β : Type} (l : List α) (f : α → List β) (p : β → Bool) :
    (l.flatMap f).countP p = (l.map fun a => (f a).countP p).sum := by
  induction l with
  | nil => simp
  | cons a t ih => simp [List.countP_append, ih]

theorem countP_key_filter {β : Type} (m : List (String × β))
    (hm : (m.map Prod.fst).Nodup) (k : String) (q : String × β → Bool) :
    (m.filter q).countP (fun e => e.1 == k) =
      if ∃ e ∈ m, e.1 = k ∧ q e = true then 1 else 0 := by
  induction m with
  | nil => simp
  | cons e rest ih =>
    simp only [List.map_cons, List.nodup_cons] at hm
    have hmem : ∀ hk : e.1 = k, ¬∃ x ∈ rest, x.1 = k ∧ q x = true := by
      rintro hk ⟨x, hx, hxk, -⟩
      refine hm.1 ?_
      rw [hk, ← hxk]
      exact List.mem_map_of_mem Prod.fst hx
    by_cases hq : q e = true
    · by_cases hk : e.1 = k
      · have h0 : (rest.filter q).countP (fun x => x.1 == k) = 0 := by
          rw [ih hm.2, if_neg (hmem hk)]
        have hex : ∃ x ∈ e :: rest, x.1 = k ∧ q x = true :=
          ⟨e, List.mem_cons_self e rest, hk, hq⟩
        simp [List.filter_cons, hq, List.countP_cons, h0, hk, hex]
      · have hiff : (∃ x ∈ e :: rest, x.1 = k ∧ q x = true) ↔
            ∃ x ∈ rest, x.1 = k ∧ q x = true := by
          constructor
          · rintro ⟨x, hx, hxk, hxq⟩
            rcases List.mem_cons.mp hx with rfl | hx
            · exact absurd hxk hk
            · exact ⟨x, hx, hxk, hxq⟩
          · rintro ⟨x, hx, hxk, hxq⟩
            exact ⟨x, List.mem_cons_of_mem e hx, hxk, hxq⟩
        rw [List.filter_cons, if_pos hq, List.countP_cons, ih hm.2]
        have heq : (e.1 == k) = false := by simpa using hk
        simp only [heq, Bool.false_eq_true, if_false, Nat.add_zero]
        by_cases hex : ∃ x ∈ rest, x.1 = k ∧ q x = true
        · rw [if_pos hex, if_pos (hiff.mpr hex)]
        · rw [if_neg hex, if_neg (fun h => hex (hiff.mp h))]
    · have hiff : (∃ x ∈ e :: rest, x.1 = k ∧ q x = true) ↔
          ∃ x ∈ rest, x.1 = k ∧ q x = true := by
        constructor
        · rintro ⟨x, hx, hxk, hxq⟩
          rcases List.mem_cons.mp hx with rfl | hx
          · exact absurd hxq hq
          · exact ⟨x, hx, hxk, hxq⟩
        · rintro ⟨x, hx, hxk, hxq⟩
          exact ⟨x, List.mem_cons_of_mem e hx, hxk, hxq⟩
      rw [List.filter_cons, if_neg hq, ih hm.2]
      by_cases hex : ∃ x ∈ rest, x.1 = k ∧ q x = true
      · rw [if_pos hex, if_pos (hiff.mpr hex)]
      · rw [if_neg hex, if_neg (fun h => hex (hiff.mp h))]

theorem sum_map_eq_countP_mul {α : Type} (l : List α) (g : α → Nat) (p : α → Bool) (K : Nat)
    (hg : ∀ a ∈ l, g a = if p a = true then K else 0) :
    (l.map g).sum = l.countP p * K := by
  induction l with
  | nil => simp
  | cons a t ih =>
    simp only [List.map_cons, List.sum_cons, List.countP_cons]
    rw [hg a (List.mem_cons_self a t), ih (fun x hx => hg x (List.mem_cons_of_mem a hx))]
    by_cases hp : p a = true
    · simp [hp, Nat.add_mul, Nat.add_comm]
    · simp [hp]

/-- C1: `detectNumberSwaps` reports exactly one swap record for every pair of
a disappeared original key and a newly appeared current key (the full cross
product), no record involves a key present in both snapshots, and the number
of records is the product of the two difference sizes. -/
theorem detectNumberSwaps_spec (orig : List (String × OrigRec)) (curr : List (String × CurrRec))
    (now : Nat) (ho : (orig.map Prod.fst).Nodup) (hc : (curr.map Prod.fst).Nodup) :
    (∀ o c : String,
      ((detectNumberSwaps orig curr now).countP fun r =>
          r.originalNormalized == o && r.trackingNormalized == c) =
        if (findVal orig o).isSome = true ∧ (findVal curr o).isNone = true ∧
            (findVal curr c).isSome = true ∧ (findVal orig c).isNone = true then 1 else 0) ∧
    (∀ r ∈ detectNumberSwaps orig curr now,
      ((findVal orig r.originalNormalized).isSome = true ∧
        (findVal curr r.originalNormalized).isNone = true) ∧
      ((findVal curr r.trackingNormalized).isSome = true ∧
        (findVal orig r.trackingNormalized).isNone = true)) ∧
    (detectNumberSwaps orig curr now).length =
      (orig.filter fun o => (findVal curr o.1).isNone).length *
        (curr.filter fun c => (findVal orig c.1).isNone).length := by
  refine ⟨fun o c => ?_, fun r hr => ?_, ?_⟩
  · rw [detectNumberSwaps, countP_flatMap]
    rw [sum_map_eq_countP_mul _ _ (fun e => e.1 == o)
        ((curr.filter fun ce => (findVal orig ce.1).isNone).countP fun ce => ce.1 == c) ?hg]
    case hg =>
      intro e _
      rw [List.countP_map]
      by_cases heo : e.1 = o
      · have : (e.1 == o) = true := by simpa using heo
        rw [if_pos this]
        refine List.countP_congr fun ce _ => ?_
        simp [Function.comp, this]
      · have : (e.1 == o) = false := by simpa using heo
        rw [if_neg (by simp [this])]
        refine List.countP_eq_zero.mpr fun ce _ => ?_
        simp [Function.comp, this]
    rw [countP_key_filter orig ho o _, countP_key_filter curr hc c _]
    have hA : (∃ e ∈ orig, e.1 = o ∧ ((findVal curr e.1).isNone = true)) ↔
        ((findVal orig o).isSome = true ∧ (findVal curr o).isNone = true) := by
      constructor
      · rintro ⟨e, he, rfl, hn⟩
        exact ⟨(findVal_isSome_iff orig e.1).mpr ⟨e, he, rfl⟩, hn⟩
      · rintro ⟨hs, hn⟩
        obtain ⟨e, he, heo⟩ := (findVal_isSome_iff orig o).mp hs
        exact ⟨e, he, heo, heo ▸ hn⟩
    have hB : (∃ ce ∈ curr, ce.1 = c ∧ ((findVal orig ce.1).isNone = true)) ↔
        ((findVal curr c).isSome = true ∧ (findVal orig c).isNone = true) := by
      constructor
      · rintro ⟨ce, hce, rfl, hn⟩
        exact ⟨(findVal_isSome_iff curr ce.1).mpr ⟨ce, hce, rfl⟩, hn⟩
      · rintro ⟨hs, hn⟩
        obtain ⟨ce, hce, hceo⟩ := (findVal_isSome_iff curr c).mp hs
        exact ⟨ce, hce, hceo, hceo ▸ hn⟩
    simp only [hA, hB]
    by_cases h1 : (findVal orig o).isSome = true <;>
      by_cases h2 : (findVal curr o).isNone = true <;>
        by_cases h3 : (findVal curr c).isSome = true <;>
          by_cases h4 : (findVal orig c).isNone = true <;>
            simp [h1, h2, h3, h4]
  · simp only [detectNumberSwaps, List.mem_flatMap, List.mem_map, List.mem_filter] at hr
    obtain ⟨e, ⟨he, hen⟩, ce, ⟨⟨hce, hcen⟩, rfl⟩⟩ := hr
    exact ⟨⟨(findVal_isSome_iff orig e.1).mpr ⟨e, he, rfl⟩, hen⟩,
      ⟨(findVal_isSome_iff curr ce.1).mpr ⟨ce, hce, rfl⟩, hcen⟩⟩
  · rw [detectNumberSwaps]
    induction (orig.filter fun o => (findVal curr o.1).isNone) with
    | nil => simp
    | cons e t ih => simp [List.flatMap_cons, ih, Nat.add_mul, Nat.add_comm]

/-- Example original snapshot with two entries, for the C1 witness. -/
def exOrig : List (String × OrigRec) :=
  [("5550000001", ⟨⟨"A", "A", "5550000001", "Header", "A", false⟩, 0, ["Header"]⟩),
   ("5550000002", ⟨⟨"B", "B", "5550000002", "Footer", "B", false⟩, 0, ["Footer"]⟩)]

/-- Example current snapshot with two entries on fresh keys, for the C1
witness. -/
def exCurr : List (String × CurrRec) :=
  [("8880000001", ⟨⟨"C", "C", "8880000001", "Header", "C", false⟩, 1, ["Header"]⟩),
   ("8880000002", ⟨⟨"D", "D", "8880000002", "Footer", "D", false⟩, 1, ["Footer"]⟩)]

/-- C1 witness: on `original = A, B` and `current = C, D` with all four keys
distinct, the detector returns exactly 4 records and exactly one for the pair
`(A, C)`. -/
theorem detectNumberSwaps_spec_witness :
    (detectNumberSwaps exOrig exCurr 5).length = 4 ∧
    ((detectNumberSwaps exOrig exCurr 5).countP fun r =>
      r.originalNormalized == "5550000001" && r.trackingNormalized == "8880000001") = 1 := by
  have h := detectNumberSwaps_spec exOrig exCurr 5 (by decide) (by decide)
  constructor
  · rw [h.2.2]
    decide
  · rw [h.1 "5550000001" "8880000001"]
    decide

/-! ## Badge / status count lemmas -/

theorem dedupFirstAux_length (l : List String) : ∀ seen : List String,
    (dedupFirstAux seen l).length = (l.toFinset \ seen.toFinset).card := by
  induction l with
  | nil => intro seen; simp [dedupFirstAux]
  | cons x xs ih =>
    intro seen
    by_cases hx : seen.contains x = true
    · have hxm : x ∈ seen.toFinset := by
        rw [List.mem_toFinset]
        simpa using hx
      rw [dedupFirstAux, if_pos hx, ih seen, List.toFinset_cons,
        Finset.insert_sdiff_of_mem _ hxm]
    · have hxm : x ∉ seen.toFinset := by
        rw [List.mem_toFinset]
        intro hmem
        exact hx (by simpa using hmem)
      rw [dedupFirstAux, if_neg hx, List.length_cons, ih (x :: seen), List.toFinset_cons,
        List.toFinset_cons, Finset.sdiff_insert, Finset.insert_sdiff_of_not_mem _ hxm]
      by_cases hxB : x ∈ xs.toFinset \ seen.toFinset
      · rw [Finset.insert_eq_self.mpr hxB, Finset.card_erase_add_one hxB]
      · rw [Finset.erase_eq_of_not_mem hxB, Finset.card_insert_of_not_mem hxB]

/-- C6 amended: the unique-provider count of `updateBadgeAndStorage` equals
the number of distinct `providerId` values of the tracker entries, while the
popup/side-panel status line reports the raw entry count
`detectedTrackers.length`. -/
theorem providerCount_spec (trackers : List Tracker) :
    uniqueProviderCount trackers = (trackers.map Tracker.providerId).toFinset.card ∧
    popupStatusTrackerCount trackers = trackers.length := by
  refine ⟨?_, rfl⟩
  rw [uniqueProviderCount, dedupFirst, dedupFirstAux_length]
  simp

/-- C6 counterexample: two tracker entries of the same provider make the
status line say "2 Tracker(s) Detected" although only one distinct provider
was detected. -/
theorem providerCount_counterexample :
    popupStatusTrackerCount
      [⟨"CallRail", "callrail", "https://a.example/ls.js", 0, false, none, none⟩,
       ⟨"CallRail", "callrail", "https://b.example/ls.js", 1, false, none, none⟩] = 2 ∧
    uniqueProviderCount
      [⟨"CallRail", "callrail", "https://a.example/ls.js", 0, false, none, none⟩,
       ⟨"CallRail", "callrail", "https://b.example/ls.js", 1, false, none, none⟩] = 1 := by
  constructor <;> rfl

/-! ## Absent-body behaviour (C7) -/

/-- C7 counterexample: invoking the locator on an absent root element does
not return an empty result — `document.createTreeWalker(null, ...)` throws,
and `content.js`'s unguarded `captureOriginalNumbers` propagates the
exception. -/
theorem findPhoneNumbers_absent_counterexample :
    findPhoneNumbersInElement none =
      Except.error "TypeError: parameter 1 is not of type Node" ∧
    (captureOriginalNumbersCJS none [] 0).isOk = false := ⟨rfl, rfl⟩

/-- C7 amended: only the enhanced content script's `captureOriginalNumbers`
and `scanCurrentNumbers` guard against the absent body, returning with their
maps unchanged instead of throwing; the bare locator
(`findPhoneNumbersInElement` of utils.js) and `content.js`'s unguarded
capture fault on an absent root. -/
theorem absentBody_guard_spec (orig : List (String × OrigRec))
    (curr : List (String × CurrRec)) (now : Nat) :
    captureOriginalNumbers none orig now = orig ∧
    scanCurrentNumbers none curr = curr ∧
    (captureOriginalNumbersCJS none orig now).isOk = false ∧
    (findPhoneNumbersInElement none).isOk = false := ⟨rfl, rfl, rfl, rfl⟩

/-! ## Rescan (C8) -/

/-- C8: handling a rescan request clears `originalNumbers`, `currentNumbers`
and `detectedTrackers` before detection re-runs, so the rescan outcome is
independent of all previously accumulated state. -/
theorem handleRescan_spec (providers : List Provider) (st : ScanState) (page : Page)
    (now : Nat) :
    (clearForRescan st).originalNumbers = [] ∧
    (clearForRescan st).currentNumbers = [] ∧
    (clearForRescan st).detectedTrackers = [] ∧
    ∀ st' : ScanState, handleRescan providers st page now = handleRescan providers st' page now :=
  ⟨rfl, rfl, rfl, fun _ => rfl⟩

/-! ## Substring characterizations and the domain check (C3) -/

theorem containsSub_iff (pat s : List Char) :
    containsSub pat s = true ↔ ∃ pre suf, s = pre ++ (pat ++ suf) := by
  induction s with
  | nil =>
    rw [containsSub]
    constructor
    · intro h
      refine ⟨[], [], ?_⟩
      have : pat = [] := by simpa using h
      simp [this]
    · rintro ⟨pre, suf, heq⟩
      rcases List.append_eq_nil.mp heq.symm with ⟨rfl, h2⟩
      rcases List.append_eq_nil.mp h2 with ⟨rfl, rfl⟩
      simp
  | cons c t ih =>
    simp only [containsSub, Bool.or_eq_true, List.isPrefixOf_iff_prefix, ih]
    constructor
    · rintro (h | ⟨pre, suf, rfl⟩)
      · obtain ⟨rest, hr⟩ := h
        exact ⟨[], rest, by simp [hr]⟩
      · exact ⟨c :: pre, suf, rfl⟩
    · rintro ⟨pre, suf, heq⟩
      cases pre with
      | nil =>
        left
        exact ⟨suf, by simpa using heq.symm⟩
      | cons p ps =>
        right
        simp only [List.cons_append, List.cons.injEq] at heq
        exact ⟨ps, suf, heq.2⟩

theorem endsWithL_iff (s t : List Char) :
    endsWithL s t = true ↔ ∃ pre, s = pre ++ t := by
  rw [endsWithL, List.isPrefixOf_iff_prefix, List.reverse_prefix]
  constructor
  · rintro ⟨pre, hpre⟩
    exact ⟨pre, hpre.symm⟩
  · rintro ⟨pre, rfl⟩
    exact ⟨pre, rfl⟩

theorem strIsEmpty_iff (s : String) : s.isEmpty = true ↔ s = "" := by
  constructor
  · intro h
    cases s with
    | mk d =>
      cases d with
      | nil => rfl
      | cons a t =>
        simp only [String.isEmpty, String.endPos, beq_iff_eq] at h
        have hb := congrArg String.Pos.byteIdx h
        have := Char.utf8Size_pos a
        simp [String.utf8ByteSize, String.utf8ByteSize.go] at hb
        omega
  · rintro rfl
    rfl

/-- The provider used in the C3 counterexample: CallRail with its single
tracking domain. -/
def provCallRail : Provider := ⟨"callrail", "CallRail", ["calltrk.com"], [], [], [], []⟩

/-- C3 counterexample: for a URL whose hostname is unrelated to
`calltrk.com` but whose path contains that string, `matchesTrackingUrl`
reports a domain match even though the hostname is neither equal to the
domains entry nor a subdomain of it — the claimed iff fails. -/
theorem domainCheck_counterexample :
    (matchesTrackingUrl (some ⟨"evil.example", "/calltrk.com/ls.js", []⟩)
        "https://evil.example/calltrk.com/ls.js" provCallRail).isMatch = true ∧
    (matchesTrackingUrl (some ⟨"evil.example", "/calltrk.com/ls.js", []⟩)
        "https://evil.example/calltrk.com/ls.js" provCallRail).matchType = some "domain" ∧
    hostnameDomainCheck "evil.example" ["calltrk.com"] = false := by
  refine ⟨?_, ?_, ?_⟩ <;> decide

/-- C3 amended: the domain check of `matchesTrackingUrl` (and of
`content.js`) succeeds exactly when the lowercased URL contains a (lowercased)
domains entry anywhere as a substring; only the `part_001` content script's
domain check implements the hostname exact-or-subdomain rule. -/
theorem domainCheck_spec :
    (∀ (parts : Option UrlParts) (url : String) (provider : Provider),
      ((matchesTrackingUrl parts url provider).matchType = some "domain" ↔
        url ≠ "" ∧ ∃ d ∈ provider.domains, ∃ pre suf,
          (lowerStr url).data = pre ++ ((lowerStr d).data ++ suf))) ∧
    (∀ (hostname : String) (domains : List String),
      (hostnameDomainCheck hostname domains = true ↔
        ∃ d ∈ domains, lowerStr hostname = lowerStr d ∨
          ∃ pre, (lowerStr hostname).data = pre ++ ('.' :: (lowerStr d).data))) := by
  constructor
  · intro parts url provider
    rw [matchesTrackingUrl]
    by_cases hurl : url.isEmpty = true
    · rw [if_pos hurl]
      simp [(strIsEmpty_iff url).mp hurl]
    · have hne : url ≠ "" := fun h => hurl ((strIsEmpty_iff url).mpr h)
      rw [if_neg hurl]
      by_cases hdom : (!provider.domains.isEmpty &&
          provider.domains.any fun domain => includesStr (lowerStr url) (lowerStr domain)) = true
      · rw [if_pos hdom]
        constructor
        · intro _
          refine ⟨hne, ?_⟩
          have hany : (provider.domains.any fun domain =>
              includesStr (lowerStr url) (lowerStr domain)) = true := by
            have h := hdom
            simp only [Bool.and_eq_true] at h
            exact h.2
          obtain ⟨d, hd, hinc⟩ := List.any_eq_true.mp hany
          exact ⟨d, hd, (containsSub_iff _ _).mp hinc⟩
        · intro _
          rfl
      · have hfalse : ¬(url ≠ "" ∧ ∃ d ∈ provider.domains, ∃ pre suf,
            (lowerStr url).data = pre ++ ((lowerStr d).data ++ suf)) := by
          rintro ⟨-, d, hd, pre, suf, heq⟩
          apply hdom
          have h1 : provider.domains.isEmpty = false := by
            cases hl : provider.domains with
            | nil =>
              rw [hl] at hd
              simp at hd
            | cons a t => rfl
          have h2 : (provider.domains.any fun domain =>
              includesStr (lowerStr url) (lowerStr domain)) = true :=
            List.any_eq_true.mpr ⟨d, hd, (containsSub_iff _ _).mpr ⟨pre, suf, heq⟩⟩
          simp [h1, h2]
        rw [if_neg hdom]
        split_ifs <;> simp [hfalse]
  · intro hostname domains
    simp only [hostnameDomainCheck, List.any_eq_true, Bool.or_eq_true, beq_iff_eq]
    refine exists_congr fun d => and_congr_right fun _ => or_congr Iff.rfl ?_
    rw [endsWithStr, endsWithL_iff]
    have hdata : ("." ++ lowerStr d).data = '.' :: (lowerStr d).data := rfl
    rw [hdata]

/-! ## Equivalence of the wildcard matcher with the regex semantics (C5) -/

theorem glob_nil_iff (s : List Char) : Glob [] s ↔ s = [] := by
  constructor
  · intro h
    cases h
    rfl
  · rintro rfl
    exact Glob.done

theorem glob_star_iff (p s : List Char) :
    Glob ('*' :: p) s ↔ ∃ a b, s = a ++ b ∧ Glob p b := by
  constructor
  · intro h
    induction s with
    | nil =>
      cases h with
      | starNil h' => exact ⟨[], [], rfl, h'⟩
    | cons c t ih =>
      cases h with
      | starNil h' => exact ⟨[], c :: t, rfl, h'⟩
      | starCons h' =>
        obtain ⟨a, b, rfl, hb⟩ := ih h'
        exact ⟨c :: a, b, rfl, hb⟩
      | lit hne _ => exact absurd rfl hne
  · rintro ⟨a, b, rfl, hb⟩
    induction a with
    | nil => exact Glob.starNil hb
    | cons x xs ih => exact Glob.starCons ih

theorem glob_cons_iff {c : Char} (hc : c ≠ '*') (p s : List Char) :
    Glob (c :: p) s ↔ ∃ s', s = c :: s' ∧ Glob p s' := by
  constructor
  · intro h
    cases h with
    | lit _ h' => exact ⟨_, rfl, h'⟩
    | starNil h' => exact absurd rfl hc
    | starCons h' => exact absurd rfl hc
  · rintro ⟨s', rfl, h⟩
    exact Glob.lit hc h

theorem glob_star_all (s : List Char) : Glob ['*'] s := by
  induction s with
  | nil => exact Glob.starNil Glob.done
  | cons c t ih => exact Glob.starCons ih

theorem glob_append (p : List Char) : ∀ q s : List Char,
    Glob (p ++ q) s ↔ ∃ s₁ s₂, s = s₁ ++ s₂ ∧ Glob p s₁ ∧ Glob q s₂ := by
  induction p with
  | nil =>
    intro q s
    simp only [List.nil_append]
    constructor
    · intro h
      exact ⟨[], s, rfl, Glob.done, h⟩
    · rintro ⟨s₁, s₂, rfl, h₁, h₂⟩
      rw [(glob_nil_iff s₁).mp h₁]
      simpa using h₂
  | cons c p' ih =>
    intro q s
    by_cases hc : c = '*'
    · subst hc
      rw [List.cons_append, glob_star_iff]
      constructor
      · rintro ⟨a, b, rfl, hb⟩
        obtain ⟨s₁, s₂, rfl, h₁, h₂⟩ := (ih q b).mp hb
        exact ⟨a ++ s₁, s₂, by simp, (glob_star_iff p' (a ++ s₁)).mpr ⟨a, s₁, rfl, h₁⟩, h₂⟩
      · rintro ⟨s₁, s₂, rfl, h₁, h₂⟩
        obtain ⟨a, b, rfl, hb⟩ := (glob_star_iff p' s₁).mp h₁
        exact ⟨a, b ++ s₂, by simp, (ih q (b ++ s₂)).mpr ⟨b, s₂, rfl, hb, h₂⟩⟩
    · rw [List.cons_append, glob_cons_iff hc]
      constructor
      · rintro ⟨s', rfl, h⟩
        obtain ⟨s₁, s₂, rfl, h₁, h₂⟩ := (ih q s').mp h
        exact ⟨c :: s₁, s₂, rfl, (glob_cons_iff hc p' (c :: s₁)).mpr ⟨s₁, rfl, h₁⟩, h₂⟩
      · rintro ⟨s₁, s₂, rfl, h₁, h₂⟩
        obtain ⟨t, rfl, ht⟩ := (glob_cons_iff hc p' s₁).mp h₁
        exact ⟨t ++ s₂, rfl, (ih q (t ++ s₂)).mpr ⟨t, s₂, rfl, ht, h₂⟩⟩

/-- Declarative counterpart of `seqContains`: the literal segments occur in
`s`, in this order and without overlap. -/
def SeqSpec : List (List Char) → List Char → Prop
  | [], _ => True
  | seg :: rest, s => ∃ pre suf, s = pre ++ (seg ++ suf) ∧ SeqSpec rest suf

theorem dropAfterFirst_sound (pat : List Char) :
    ∀ s s', dropAfterFirst pat s = some s' → ∃ pre, s = pre ++ (pat ++ s') := by
  intro s
  induction s with
  | nil =>
    intro s' h
    rw [dropAfterFirst] at h
    by_cases hp : pat.isEmpty = true
    · rw [if_pos hp] at h
      obtain rfl : ([] : List Char) = s' := Option.some.inj h
      rw [List.isEmpty_iff.mp hp]
      exact ⟨[], rfl⟩
    · rw [if_neg hp] at h
      exact absurd h (by simp)
  | cons c t ih =>
    intro s' h
    rw [dropAfterFirst] at h
    by_cases hp : pat.isPrefixOf (c :: t) = true
    · rw [if_pos hp] at h
      obtain ⟨rest, hr⟩ := List.isPrefixOf_iff_prefix.mp hp
      obtain rfl : (c :: t).drop pat.length = s' := Option.some.inj h
      refine ⟨[], ?_⟩
      rw [← hr, List.drop_left, List.nil_append]
    · rw [if_neg hp] at h
      obtain ⟨pre, hpre⟩ := ih s' h
      exact ⟨c :: pre, by rw [hpre, List.cons_append]⟩

theorem suffix_trans_of_le {l₁ l₂ s : List Char} (h₁ : l₁ <:+ s) (h₂ : l₂ <:+ s)
    (hle : l₁.length ≤ l₂.length) : l₁ <:+ l₂ := by
  rw [← List.reverse_prefix] at h₁ h₂ ⊢
  exact List.prefix_of_prefix_length_le h₁ h₂ (by simpa using hle)

theorem dropAfterFirst_complete (pat : List Char) :
    ∀ pre suf, ∃ s', dropAfterFirst pat (pre ++ (pat ++ suf)) = some s' ∧ suf <:+ s' := by
  intro pre
  induction pre with
  | nil =>
    intro suf
    simp only [List.nil_append]
    cases hps : pat ++ suf with
    | nil =>
      rcases List.append_eq_nil.mp hps with ⟨rfl, rfl⟩
      exact ⟨[], by rw [dropAfterFirst]; simp, List.suffix_refl []⟩
    | cons c t =>
      have hpre : pat.isPrefixOf (c :: t) = true :=
        List.isPrefixOf_iff_prefix.mpr ⟨suf, hps⟩
      refine ⟨suf, ?_, List.suffix_refl suf⟩
      rw [dropAfterFirst, if_pos hpre, ← hps, List.drop_left]
  | cons x pre' ih =>
    intro suf
    rw [List.cons_append, dropAfterFirst]
    by_cases hp : pat.isPrefixOf (x :: (pre' ++ (pat ++ suf))) = true
    · rw [if_pos hp]
      refine ⟨_, rfl, ?_⟩
      have hsuf1 : suf <:+ x :: (pre' ++ (pat ++ suf)) :=
        ⟨x :: (pre' ++ pat), by simp⟩
      have hsuf2 : (x :: (pre' ++ (pat ++ suf))).drop pat.length <:+
          x :: (pre' ++ (pat ++ suf)) := List.drop_suffix _ _
      refine suffix_trans_of_le hsuf1 hsuf2 ?_
      obtain ⟨rest, hr⟩ := List.isPrefixOf_iff_prefix.mp hp
      have hlen := congrArg List.length hr
      simp only [List.length_append, List.length_cons, List.length_drop] at hlen ⊢
      omega
    · rw [if_neg hp]
      exact ih suf

theorem seqSpec_extend (segs : List (List Char)) :
    ∀ suf s', SeqSpec segs suf → suf <:+ s' → SeqSpec segs s' := by
  intro suf s' hs hsuf
  cases segs with
  | nil => trivial
  | cons seg rest =>
    obtain ⟨pre, suf2, rfl, hrest⟩ := hs
    obtain ⟨ext, rfl⟩ := hsuf
    exact ⟨ext ++ pre, suf2, by simp, hrest⟩

theorem seqContains_iff (segs : List (List Char)) :
    ∀ s, seqContains segs s = true ↔ SeqSpec segs s := by
  induction segs with
  | nil => intro s; simp [seqContains, SeqSpec]
  | cons seg rest ih =>
    intro s
    rw [seqContains]
    cases hdrop : dropAfterFirst seg s with
    | none =>
      show (false = true) ↔ SeqSpec (seg :: rest) s
      simp only [Bool.false_eq_true, false_iff]
      rintro ⟨pre, suf, rfl, -⟩
      obtain ⟨s'', hs'', -⟩ := dropAfterFirst_complete seg pre suf
      rw [hdrop] at hs''
      exact absurd hs'' (by simp)
    | some s' =>
      show seqContains rest s' = true ↔ SeqSpec (seg :: rest) s
      constructor
      · intro h
        obtain ⟨pre, hpre⟩ := dropAfterFirst_sound seg s s' hdrop
        exact ⟨pre, s', hpre, (ih s').mp h⟩
      · rintro ⟨pre, suf, rfl, hrest⟩
        obtain ⟨s'', hs'', hsuf⟩ := dropAfterFirst_complete seg pre suf
        rw [hdrop] at hs''
        obtain rfl : s' = s'' := Option.some.inj hs''
        exact (ih s').mpr (seqSpec_extend rest suf s' hrest hsuf)

/-- Anchored matching of a star-separated segment list: the string is the
first segment, then an arbitrary gap, then the rest. -/
def SegMatch : List (List Char) → List Char → Prop
  | [], _ => False
  | [seg], m => m = seg
  | seg :: r :: rs, m => ∃ gap m', m = seg ++ (gap ++ m') ∧ SegMatch (r :: rs) m'

theorem splitStar_ne_nil (p : List Char) : splitStar p ≠ [] := by
  cases p with
  | nil => simp [splitStar]
  | cons c t =>
    rw [splitStar]
    by_cases hc : c = '*'
    · simp [hc]
    · rw [if_neg hc]
      cases splitStar t <;> simp

theorem segMatch_cons_char (c : Char) (h : List Char) (r : List (List Char)) (m : List Char) :
    SegMatch ((c :: h) :: r) m ↔ ∃ m', m = c :: m' ∧ SegMatch (h :: r) m' := by
  cases r with
  | nil =>
    constructor
    · intro hm
      exact ⟨h, hm, rfl⟩
    · rintro ⟨m', rfl, rfl⟩
      rfl
  | cons r0 rs =>
    constructor
    · rintro ⟨gap, m', rfl, hrest⟩
      exact ⟨h ++ (gap ++ m'), rfl, gap, m', rfl, hrest⟩
    · rintro ⟨m', rfl, gap, m2, rfl, hrest⟩
      exact ⟨gap, m2, rfl, hrest⟩

theorem glob_segMatch (p : List Char) : ∀ m, Glob p m ↔ SegMatch (splitStar p) m := by
  induction p with
  | nil =>
    intro m
    rw [glob_nil_iff]
    show m = [] ↔ SegMatch [[]] m
    constructor
    · rintro rfl
      rfl
    · intro hm
      exact hm
  | cons c p' ih =>
    intro m
    by_cases hc : c = '*'
    · subst hc
      rw [glob_star_iff]
      have hsp := splitStar_ne_nil p'
      rw [show splitStar ('*' :: p') = [] :: splitStar p' from by rw [splitStar]; simp]
      cases hspv : splitStar p' with
      | nil => exact absurd hspv hsp
      | cons h r =>
        constructor
        · rintro ⟨a, b, rfl, hb⟩
          have := (ih b).mp hb
          rw [hspv] at this
          exact ⟨a, b, rfl, this⟩
        · rintro ⟨gap, m', rfl, hrest⟩
          refine ⟨gap, m', rfl, (ih m').mpr ?_⟩
          rw [hspv]
          exact hrest
    · rw [glob_cons_iff hc]
      rw [show splitStar (c :: p') =
          (match splitStar p' with
            | [] => [[c]]
            | h :: r => (c :: h) :: r) from by rw [splitStar, if_neg hc]]
      cases hspv : splitStar p' with
      | nil => exact absurd hspv (splitStar_ne_nil p')
      | cons h r =>
        rw [segMatch_cons_char]
        refine exists_congr fun m' => and_congr_right fun _ => ?_
        rw [ih m', hspv]

theorem segMatch_seqSpec (segs : List (List Char)) :
    ∀ pre m suf, SegMatch segs m → SeqSpec segs (pre ++ (m ++ suf)) := by
  induction segs with
  | nil =>
    intro pre m suf hm
    exact absurd hm id
  | cons seg rest ih =>
    intro pre m suf hm
    cases rest with
    | nil =>
      obtain rfl : m = seg := hm
      exact ⟨pre, suf, rfl, trivial⟩
    | cons r0 rs =>
      obtain ⟨gap, m', rfl, hrest⟩ := hm
      refine ⟨pre, gap ++ (m' ++ suf), by simp, ?_⟩
      exact ih gap m' suf hrest

theorem seqSpec_segMatch (segs : List (List Char)) (hne : segs ≠ []) :
    ∀ s, SeqSpec segs s → ∃ pre mid suf, s = pre ++ (mid ++ suf) ∧ SegMatch segs mid := by
  induction segs with
  | nil => exact absurd rfl hne
  | cons seg rest ih =>
    intro s hs
    obtain ⟨pre, suf, rfl, hrest⟩ := hs
    cases rest with
    | nil => exact ⟨pre, seg, suf, rfl, rfl⟩
    | cons r0 rs =>
      obtain ⟨pre', mid', suf', rfl, hmid⟩ := ih (by simp) suf hrest
      refine ⟨pre, seg ++ (pre' ++ mid'), suf', by simp, ?_⟩
      exact ⟨pre', mid', rfl, hmid⟩

/-- The executable wildcard matcher agrees with the declarative unanchored
regex semantics of the translated pattern. -/
theorem wildcardTest_iff (pat s : String) :
    wildcardTest pat s = true ↔ regexTest pat.data s.data := by
  rw [wildcardTest, seqContains_iff]
  constructor
  · intro h
    obtain ⟨pre, mid, suf, heq, hmid⟩ :=
      seqSpec_segMatch (splitStar pat.data) (splitStar_ne_nil pat.data) s.data h
    exact ⟨pre, mid, suf, by simpa using heq, (glob_segMatch pat.data mid).mpr hmid⟩
  · rintro ⟨pre, mid, suf, heq, hg⟩
    have hm := (glob_segMatch pat.data mid).mp hg
    have := segMatch_seqSpec (splitStar pat.data) pre mid suf hm
    rwa [show pre ++ (mid ++ suf) = pre ++ mid ++ suf from by simp, ← heq] at this

/-- C5: `matchesUrlPattern` decides the wildcard match by the unanchored
regex semantics of the pattern with every `*` read as "any run of
characters", applied to the parsed URL path; on URL-parse failure a starred
pattern is regex-tested against the raw lowercased URL and a star-free one
falls back to substring containment.  In particular `/track/*` matches the
path `/track/abc123` and does not match `/tracking/abc`. -/
theorem matchesUrlPattern_spec :
    (∀ (parsedPath : Option String) (url : String) (patterns : List String),
      matchesUrlPattern parsedPath url patterns = true ↔
        (url ≠ "" ∧
          ((∃ pathname, parsedPath = some pathname ∧
              ∃ pat ∈ patterns, regexTest (lowerStr pat).data pathname.data) ∨
           (parsedPath = none ∧
              ∃ pat ∈ patterns,
                if (lowerStr pat).data.contains '*' = true then
                  regexTest (lowerStr pat).data (lowerStr url).data
                else ∃ pre suf,
                  (lowerStr url).data = pre ++ ((lowerStr pat).data ++ suf))))) ∧
    matchesUrlPattern (some "/track/abc123") "https://host.example/track/abc123"
      ["/track/*"] = true ∧
    matchesUrlPattern (some "/tracking/abc") "https://host.example/tracking/abc"
      ["/track/*"] = false := by
  refine ⟨?_, by decide, by decide⟩
  intro parsedPath url patterns
  rw [matchesUrlPattern.eq_def]
  by_cases hurl : url.isEmpty = true
  · rw [if_pos (by simp [hurl])]
    simp [(strIsEmpty_iff url).mp hurl]
  · have hne : url ≠ "" := fun h => hurl ((strIsEmpty_iff url).mpr h)
    by_cases hpat : patterns.isEmpty = true
    · rw [if_pos (by simp [hpat])]
      obtain rfl : patterns = [] := List.isEmpty_iff.mp hpat
      simp
    · rw [if_neg (by simp [hurl, hpat])]
      cases parsedPath with
      | some pathname =>
        simp only [List.any_eq_true]
        constructor
        · rintro ⟨pat, hp, hw⟩
          exact ⟨hne, Or.inl ⟨pathname, rfl, pat, hp, (wildcardTest_iff _ _).mp hw⟩⟩
        · rintro ⟨-, h | h⟩
          · obtain ⟨pn, hpn, pat, hp, hr⟩ := h
            obtain rfl : pathname = pn := Option.some.inj hpn
            exact ⟨pat, hp, (wildcardTest_iff _ _).mpr hr⟩
          · exact absurd h.1 (by simp)
      | none =>
        have hiff : ∀ pat : String,
            ((if (lowerStr pat).data.contains '*' = true then
                wildcardTest (lowerStr pat) (lowerStr url)
              else includesStr (lowerStr url) (lowerStr pat)) = true) ↔
            (if (lowerStr pat).data.contains '*' = true then
                regexTest (lowerStr pat).data (lowerStr url).data
              else ∃ pre suf, (lowerStr url).data = pre ++ ((lowerStr pat).data ++ suf)) := by
          intro pat
          by_cases hstar : (lowerStr pat).data.contains '*' = true
          · rw [if_pos hstar, if_pos hstar, wildcardTest_iff]
          · rw [if_neg hstar, if_neg hstar]
            exact containsSub_iff _ _
        simp only [List.any_eq_true]
        constructor
        · rintro ⟨pat, hp, hw⟩
          exact ⟨hne, Or.inr ⟨by trivial, pat, hp, (hiff pat).mp hw⟩⟩
        · rintro ⟨-, h | h⟩
          · obtain ⟨pn, hpn, -⟩ := h
            exact absurd hpn (by simp)
          · obtain ⟨-, pat, hp, hr⟩ := h
            exact ⟨pat, hp, (hiff pat).mpr hr⟩

/-! ## Inline-signature reporting (C4) -/

theorem contains_setAdd (s : List String) (x y : String) :
    (setAdd s x).contains y = (s.contains y || x == y) := by
  rw [setAdd]
  by_cases h : s.contains x = true
  · rw [if_pos h]
    by_cases hxy : x = y
    · subst hxy
      have hm : x ∈ s := by simpa using h
      simp [hm]
    · have hb : (x == y) = false := by simpa using hxy
      simp [hb]
  · rw [if_neg h]
    by_cases hxy : x = y
    · subst hxy
      simp
    · have h1 : ¬y = x := fun hh => hxy hh.symm
      have h2 : (x == y) = false := by simpa using hxy
      simp [List.mem_append, h1, h2]

theorem eq_of_nodup_id : ∀ l : List Provider, (l.map Provider.id).Nodup →
    ∀ p q : Provider, p ∈ l → q ∈ l → p.id = q.id → p = q := by
  intro l
  induction l with
  | nil => intro _ p q hp; simp at hp
  | cons r t ih =>
    intro hnd p q hp hq hid
    simp only [List.map_cons, List.nodup_cons] at hnd
    rcases List.mem_cons.mp hp with rfl | hp' <;> rcases List.mem_cons.mp hq with rfl | hq'
    · rfl
    · exact absurd (hid ▸ List.mem_map_of_mem Provider.id hq') hnd.1
    · exact absurd (hid ▸ List.mem_map_of_mem Provider.id hp') (by simpa [hid] using hnd.1)
    · exact ih hnd.2 p q hp' hq' hid

/-- The predicate "an inline-signature tracker entry of provider id `q`". -/
def isInlineFor (q : String) (t : Tracker) : Bool := t.isInline && t.providerId == q

theorem inlineFold_other (contentL : String) (i : Nat) (q : String) :
    ∀ provs : List Provider, (∀ pr ∈ provs, pr.id ≠ q) →
    ∀ acc : List String × List Tracker,
    ((provs.foldl (inlineProviderStep contentL i) acc).1.contains q = acc.1.contains q) ∧
    ((provs.foldl (inlineProviderStep contentL i) acc).2.countP (isInlineFor q) =
      acc.2.countP (isInlineFor q)) := by
  intro provs
  induction provs with
  | nil => intro _ acc; exact ⟨rfl, rfl⟩
  | cons pr rest ih =>
    intro hq acc
    rw [List.foldl_cons]
    have hpr : pr.id ≠ q := hq pr (List.mem_cons_self pr rest)
    have hstep : (inlineProviderStep contentL i acc pr).1.contains q = acc.1.contains q ∧
        (inlineProviderStep contentL i acc pr).2.countP (isInlineFor q) =
          acc.2.countP (isInlineFor q) := by
      rw [inlineProviderStep]
      by_cases hc : (sigMatch contentL pr && !acc.1.contains pr.id) = true
      · rw [if_pos hc]
        refine ⟨?_, ?_⟩
        · show (setAdd acc.1 pr.id).contains q = acc.1.contains q
          rw [contains_setAdd]
          have hb : (pr.id == q) = false := by simpa using hpr
          simp [hb]
        · show (acc.2 ++ [_]).countP (isInlineFor q) = acc.2.countP (isInlineFor q)
          rw [List.countP_append]
          simp [isInlineFor, hpr]
      · rw [if_neg hc]
        exact ⟨rfl, rfl⟩
    obtain ⟨h1, h2⟩ :=
      ih (fun x hx => hq x (List.mem_cons_of_mem pr hx)) (inlineProviderStep contentL i acc pr)
    exact ⟨h1.trans hstep.1, h2.trans hstep.2⟩

theorem inlineFold_main (contentL : String) (i : Nat) :
    ∀ provs : List Provider, ∀ p : Provider, p ∈ provs → (provs.map Provider.id).Nodup →
    ∀ acc : List String × List Tracker,
    ((provs.foldl (inlineProviderStep contentL i) acc).1.contains p.id =
      (acc.1.contains p.id || sigMatch contentL p)) ∧
    ((provs.foldl (inlineProviderStep contentL i) acc).2.countP (isInlineFor p.id) =
      acc.2.countP (isInlineFor p.id) +
        (if sigMatch contentL p = true ∧ acc.1.contains p.id = false then 1 else 0)) := by
  intro provs
  induction provs with
  | nil => intro p hp; simp at hp
  | cons pr rest ih =>
    intro p hp hnd acc
    simp only [List.map_cons, List.nodup_cons] at hnd
    rw [List.foldl_cons]
    rcases List.mem_cons.mp hp with rfl | hp'
    · have hrest : ∀ x ∈ rest, x.id ≠ p.id := fun x hx hxe =>
        hnd.1 (hxe ▸ List.mem_map_of_mem Provider.id hx)
      obtain ⟨ho1, ho2⟩ :=
        inlineFold_other contentL i p.id rest hrest (inlineProviderStep contentL i acc p)
      rw [ho1, ho2, inlineProviderStep]
      by_cases hsig : sigMatch contentL p = true
      · by_cases hcont : acc.1.contains p.id = true
        · have hm : p.id ∈ acc.1 := by simpa using hcont
          rw [if_neg (by simp [hm])]
          exact ⟨by simp [hm], by simp [hm]⟩
        · have hnm : p.id ∉ acc.1 := by simpa using hcont
          rw [if_pos (by simp [hsig, hnm])]
          refine ⟨?_, ?_⟩
          · show (setAdd acc.1 p.id).contains p.id = _
            rw [contains_setAdd]
            simp [hsig]
          · show (acc.2 ++ [_]).countP (isInlineFor p.id) = _
            rw [List.countP_append]
            simp [isInlineFor, hsig, hnm]
      · have hsf : sigMatch contentL p = false := by
          revert hsig
          cases sigMatch contentL p <;> simp
        rw [if_neg (by simp [hsf])]
        exact ⟨by simp [hsf], by simp [hsf]⟩
    · have hpr : pr.id ≠ p.id := fun he => hnd.1 (he ▸ List.mem_map_of_mem Provider.id hp')
      have hstep : (inlineProviderStep contentL i acc pr).1.contains p.id =
            acc.1.contains p.id ∧
          (inlineProviderStep contentL i acc pr).2.countP (isInlineFor p.id) =
            acc.2.countP (isInlineFor p.id) := by
        rw [inlineProviderStep]
        by_cases hc : (sigMatch contentL pr && !acc.1.contains pr.id) = true
        · rw [if_pos hc]
          refine ⟨?_, ?_⟩
          · show (setAdd acc.1 pr.id).contains p.id = acc.1.contains p.id
            rw [contains_setAdd]
            have hb : (pr.id == p.id) = false := by simpa using hpr
            simp [hb]
          · show (acc.2 ++ [_]).countP (isInlineFor p.id) = acc.2.countP (isInlineFor p.id)
            rw [List.countP_append]
            simp [isInlineFor, hpr]
        · rw [if_neg hc]
          exact ⟨rfl, rfl⟩
      obtain ⟨hm1, hm2⟩ := ih p hp' hnd.2 (inlineProviderStep contentL i acc pr)
      rw [hm1, hm2, hstep.1, hstep.2]
      exact ⟨rfl, rfl⟩

theorem inlinePhase_spec (providers : List Provider) (p : Provider) (hp : p ∈ providers)
    (hnd : (providers.map Provider.id).Nodup) :
    ∀ (scripts : List String) (i : Nat) (acc : List String × List Tracker),
    ((inlinePhase providers i acc scripts).1.contains p.id =
      (acc.1.contains p.id || scripts.any fun c => sigMatch (lowerStr c) p)) ∧
    ((inlinePhase providers i acc scripts).2.countP (isInlineFor p.id) =
      acc.2.countP (isInlineFor p.id) +
        (if (∃ c ∈ scripts, sigMatch (lowerStr c) p = true) ∧ acc.1.contains p.id = false
         then 1 else 0)) := by
  intro scripts
  induction scripts with
  | nil =>
    intro i acc
    exact ⟨by simp [inlinePhase], by simp [inlinePhase]⟩
  | cons c rest ih =>
    intro i acc
    rw [inlinePhase]
    obtain ⟨hf1, hf2⟩ := inlineFold_main (lowerStr c) i providers p hp hnd acc
    obtain ⟨hr1, hr2⟩ := ih (i + 1) (providers.foldl (inlineProviderStep (lowerStr c) i) acc)
    refine ⟨?_, ?_⟩
    · rw [hr1, hf1]
      simp [Bool.or_assoc]
    · rw [hr2, hf2, hf1]
      by_cases hcont : acc.1.contains p.id = true
      · have hm : p.id ∈ acc.1 := by simpa using hcont
        simp [hm]
      · have hnm : p.id ∉ acc.1 := by simpa using hcont
        by_cases hsig : sigMatch (lowerStr c) p = true
        · simp [hnm, hsig]
        · have hsf : sigMatch (lowerStr c) p = false := by
            revert hsig
            cases sigMatch (lowerStr c) p <;> simp
          simp [hnm, hsf]

theorem extFold (src : String) (i : Nat) (q : String) :
    ∀ provs : List Provider, ∀ acc : List String × List Tracker,
    ((provs.foldl (extProviderStepCJS src i) acc).1.contains q =
      (acc.1.contains q || provs.any fun pr => pr.id == q && providerExtMatch src pr)) ∧
    ((provs.foldl (extProviderStepCJS src i) acc).2.countP (isInlineFor q) =
      acc.2.countP (isInlineFor q)) := by
  intro provs
  induction provs with
  | nil => intro acc; simp
  | cons pr rest ih =>
    intro acc
    rw [List.foldl_cons]
    obtain ⟨h1, h2⟩ := ih (extProviderStepCJS src i acc pr)
    rw [h1, h2, extProviderStepCJS]
    by_cases hm : providerExtMatch src pr = true
    · rw [if_pos hm]
      refine ⟨?_, ?_⟩
      · show ((setAdd acc.1 pr.id).contains q ||
            rest.any fun pr => pr.id == q && providerExtMatch src pr) =
          (acc.1.contains q || (pr :: rest).any fun pr => pr.id == q && providerExtMatch src pr)
        rw [contains_setAdd]
        simp [hm, Bool.or_assoc]
      · show (acc.2 ++ [(⟨pr.name, pr.id, src, i, false, none, none⟩ : Tracker)]).countP (isInlineFor q) =
          acc.2.countP (isInlineFor q)
        rw [List.countP_append]
        simp [isInlineFor]
    · have hmf : providerExtMatch src pr = false := by
        revert hm
        cases providerExtMatch src pr <;> simp
      rw [if_neg hm]
      exact ⟨by simp [hmf], rfl⟩

theorem extPhase_spec (providers : List Provider) (q : String) :
    ∀ (scripts : List ExtScript) (i : Nat) (acc : List String × List Tracker),
    ((extPhaseCJS providers i acc scripts).1.contains q =
      (acc.1.contains q || scripts.any fun s =>
        providers.any fun pr => pr.id == q && providerExtMatch s.src pr)) ∧
    ((extPhaseCJS providers i acc scripts).2.countP (isInlineFor q) =
      acc.2.countP (isInlineFor q)) := by
  intro scripts
  induction scripts with
  | nil => intro i acc; simp [extPhaseCJS]
  | cons s rest ih =>
    intro i acc
    rw [extPhaseCJS]
    obtain ⟨hf1, hf2⟩ := extFold s.src i q providers acc
    obtain ⟨hr1, hr2⟩ := ih (i + 1) (providers.foldl (extProviderStepCJS s.src i) acc)
    refine ⟨?_, ?_⟩
    · rw [hr1, hf1]
      simp [Bool.or_assoc]
    · rw [hr2, hf2]

/-- C4 amended: during one page scan a provider gains at most one
inline-signature tracker entry — exactly one when some inline script's
lowercased body contains one of its (lowercased) signatures and the provider
was not matched by a domain or script-pattern hit on any external script;
once the provider has been matched, whether by such a hit or by an earlier
inline script's signature, no further inline-signature entry is produced. -/
theorem inlineSignatures_spec (providers : List Provider) (ext : List ExtScript)
    (inl : List String) (p : Provider) (hp : p ∈ providers)
    (hnd : (providers.map Provider.id).Nodup) :
    (detectTrackingScriptsCJS providers [] ext inl).2.countP (isInlineFor p.id) =
      if (∃ c ∈ inl, sigMatch (lowerStr c) p = true) ∧
          ¬∃ s ∈ ext, providerExtMatch s.src p = true then 1 else 0 := by
  rw [detectTrackingScriptsCJS]
  obtain ⟨he1, he2⟩ := extPhase_spec providers p.id ext 0 ([], [])
  obtain ⟨hi1, hi2⟩ :=
    inlinePhase_spec providers p hp hnd inl 0 (extPhaseCJS providers 0 ([], []) ext)
  rw [hi2, he2]
  simp only [List.countP_nil, Nat.zero_add]
  have hext : (extPhaseCJS providers 0 ([], []) ext).1.contains p.id = true ↔
      ∃ s ∈ ext, providerExtMatch s.src p = true := by
    rw [he1]
    simp only [List.any_eq_true]
    constructor
    · intro h
      have h' : ∃ s ∈ ext, ∃ pr ∈ providers, (pr.id == p.id && providerExtMatch s.src pr) = true := by
        simpa [List.any_eq_true] using h
      obtain ⟨s, hs, pr, hpr, hb⟩ := h'
      simp only [Bool.and_eq_true, beq_iff_eq] at hb
      obtain rfl : pr = p := eq_of_nodup_id providers hnd pr p hpr hp hb.1
      exact ⟨s, hs, hb.2⟩
    · rintro ⟨s, hs, hm⟩
      have : ∃ s ∈ ext, ∃ pr ∈ providers, (pr.id == p.id && providerExtMatch s.src pr) = true :=
        ⟨s, hs, p, hp, by simp [hm]⟩
      simpa [List.any_eq_true] using this
  by_cases hc : (extPhaseCJS providers 0 ([], []) ext).1.contains p.id = true
  · have hfalse1 : ¬((∃ c ∈ inl, sigMatch (lowerStr c) p = true) ∧
        (extPhaseCJS providers 0 ([], []) ext).1.contains p.id = false) := by
      rintro ⟨-, h2⟩
      have hmem : p.id ∈ (extPhaseCJS providers 0 ([], []) ext).1 := by simpa using hc
      have hnmem : p.id ∉ (extPhaseCJS providers 0 ([], []) ext).1 := by simpa using h2
      exact hnmem hmem
    rw [if_neg hfalse1, if_neg (fun h => h.2 (hext.mp hc))]
  · have hcf : (extPhaseCJS providers 0 ([], []) ext).1.contains p.id = false := by
      revert hc
      cases (extPhaseCJS providers 0 ([], []) ext).1.contains p.id <;> simp
    have hne : ¬∃ s ∈ ext, providerExtMatch s.src p = true := fun h => hc (hext.mpr h)
    by_cases hex : ∃ c ∈ inl, sigMatch (lowerStr c) p = true
    · rw [if_pos ⟨hex, hcf⟩, if_pos ⟨hex, hne⟩]
    · rw [if_neg (fun h => hex h.1), if_neg (fun h => hex h.1)]

/-- The provider used by the C4 witness and counterexample: signature-only,
no domains or script patterns. -/
def exProv : Provider := ⟨"p1", "Prov", [], [], [], [], ["sig"]⟩

/-- C4 witness: a single inline script containing the signature of an
unmatched provider yields exactly one inline-signature entry. -/
theorem inlineSignatures_spec_witness :
    (detectTrackingScriptsCJS [exProv] [] [] ["start sig end"]).2.countP
        (isInlineFor exProv.id) = 1 :=
  (inlineSignatures_spec [exProv] [] ["start sig end"] exProv (by decide) (by decide)).trans
    (by decide)

/-- C4 counterexample: with two inline scripts both containing the
signature, the second script satisfies the claimed per-script condition
(body contains a signature, provider never matched by a domain or
script-pattern hit) yet is not reported — the first script's signature match
already claimed the provider. -/
theorem inlineSignatures_counterexample :
    sigMatch (lowerStr "start sig end") exProv = true ∧
    (¬∃ s ∈ ([] : List ExtScript), providerExtMatch s.src exProv = true) ∧
    ¬∃ t ∈ (detectTrackingScriptsCJS [exProv] [] [] ["start sig end", "start sig end"]).2,
        t.isInline = true ∧ t.providerId = "p1" ∧ t.elemIdx = 1 := by
  refine ⟨?_, ?_, ?_⟩ <;> decide

end CTD
